import Mathlib

/-!
Verification development for the `liblz4_test` repository.

The repository's only source file, `src/liblz4_test/main.c`, is a smoke test
that fills a 1023-byte buffer with the values `0, 1, ..., 1022` (truncated to
bytes), zero-initializes an `LZ4F_preferences_t`, sets
`compressionLevel = -47366883`, calls `LZ4F_compressFrame` with a 65544-byte
destination buffer, discards the result and returns 0.

The LZ4 frame library itself is not part of the repository's sources, so the
frame codec (preferences struct, block compressor, frame encoder and frame
decoder, and the one-shot `LZ4F_compressFrame` entry point) is modelled from
the specification's design-level description: bytes are natural numbers below
256, buffers are lists, and every operation is a total function, with errors
represented by an explicit error type.
-/

/-! ### Little-endian byte serialization and checksums -/

/-- Serialize a natural number into `k` little-endian bytes (values below 256). -/
def toLE : Nat → Nat → List Nat
  | 0, _ => []
  | k + 1, n => n % 256 :: toLE k (n / 256)

/-- Modelled from the spec: the frame format uses "a standard checksum"
(sections 4.2, 6) but the spec does not fix the function (the real library
uses xxHash32, whose source is not in the repository).  Any concrete function
makes the stated integrity properties hold; we use a 32-bit fold. -/
def checksum32 (l : List Nat) : Nat :=
  l.foldl (fun a b => (a * 31 + b + 1) % 4294967296) 17

/-! ### Preferences (modelled from the spec, section 3) -/

/-- Modelled from the spec: `blockSizeID` is "an enum selecting
64KB/256KB/1MB/4MB block boundaries"; the C struct's zero value denotes the
library default (which selects the 64KB class). -/
inductive BlockSizeID
  | default
  | max64KB
  | max256KB
  | max1MB
  | max4MB
deriving DecidableEq, Repr

/-- Block size bound, in bytes, selected by a `BlockSizeID`. -/
def BlockSizeID.size : BlockSizeID → Nat
  | .default => 65536
  | .max64KB => 65536
  | .max256KB => 262144
  | .max1MB => 1048576
  | .max4MB => 4194304

/-- Code stored in the frame's BD byte for each block-size class. -/
def BlockSizeID.code : BlockSizeID → Nat
  | .default => 4
  | .max64KB => 4
  | .max256KB => 5
  | .max1MB => 6
  | .max4MB => 7

/-- Modelled from the spec (section 3): the preferences configuration struct.
The C struct `LZ4F_preferences_t` is not in the repository's sources; the
fields follow the spec's enumeration (`compressionLevel`, `blockSizeID`,
`contentChecksumFlag`, `blockChecksumFlag`, `contentSize`, `autoFlush`). -/
structure Preferences where
  compressionLevel : Int
  blockSizeID : BlockSizeID
  blockChecksumFlag : Bool
  contentChecksumFlag : Bool
  contentSize : Nat
  autoFlush : Bool
deriving DecidableEq, Repr

/-- The all-zero preferences value produced by `memset(&pref, 0, sizeof(pref))`
in `main.c` line 11: every field holds its zero (default) value. -/
def Preferences.zeroed : Preferences :=
  { compressionLevel := 0
    blockSizeID := .default
    blockChecksumFlag := false
    contentChecksumFlag := false
    contentSize := 0
    autoFlush := false }

/-- The preferences value at the call site of `main.c` line 17: the zeroed
struct with `compressionLevel` set to `-47366883` (line 12). -/
def mainPref : Preferences :=
  { Preferences.zeroed with compressionLevel := -47366883 }

/-- Preferences with the given block size, block/content checksum flags and
compression level, all remaining fields zero; the combinations quantified
over by the round-trip property (spec section 8). -/
def mkPrefs (bsid : BlockSizeID) (bc cc : Bool) (lvl : Int) : Preferences :=
  { compressionLevel := lvl
    blockSizeID := bsid
    blockChecksumFlag := bc
    contentChecksumFlag := cc
    contentSize := 0
    autoFlush := false }

/-- Largest acceleration factor the encoder will use. -/
def ACCELERATION_MAX : Nat := 65537

/-- Modelled from the spec (sections 3 and 7): "negative values mean
ultra-fast acceleration and must be clamped, not trusted blindly".  A negative
compression level is mapped to an acceleration factor, clamped to
`ACCELERATION_MAX`; non-negative levels use the neutral acceleration 1. -/
def clampAcceleration (level : Int) : Nat :=
  if level < 0 then min (-level).toNat ACCELERATION_MAX else 1

/-! ### Block compressor (modelled from the spec, section 4.1) -/

/-- Length of the longest common initial run of two lists. -/
def matchExtend : List Nat → List Nat → Nat
  | a :: as, b :: bs => if a = b then matchExtend as bs + 1 else 0
  | _, _ => 0

/-- Length of the match between positions `j` and `i` of `input`. -/
def matchLenAt (input : List Nat) (j i : Nat) : Nat :=
  matchExtend (input.drop j) (input.drop i)

/-- Modelled from the spec: the match finder hashes each 4-byte window
(section 4.1); the concrete mixing function is not fixed by the spec. -/
def hash4 (a b c d : Nat) : Nat :=
  (a + 256 * b + 65536 * c + 16777216 * d) * 2654435761 % 4294967296 / 1048576

/-- Hash of the 4-byte window of `input` starting at `i`. -/
def hashAt (input : List Nat) (i : Nat) : Nat :=
  hash4 (input.getD i 0) (input.getD (i + 1) 0) (input.getD (i + 2) 0)
    (input.getD (i + 3) 0)

/-- Record position `i` under hash `h` in the match-finder table
(most-recent-wins, collisions overwrite; spec section 4.1). -/
def tblInsert (t : Nat → Option Nat) (h i : Nat) : Nat → Option Nat :=
  fun h2 => if h2 = h then some i else t h2

/-- One literal-run/match token of the block compressor (spec section 4.1):
a run of literal bytes followed by an optional `(offset, matchLength)` match;
the final token of a block carries no match. -/
structure Token where
  lits : List Nat
  m : Option (Nat × Nat)
deriving DecidableEq, Repr

/-- Modelled from the spec (section 4.1): greedy left-to-right scan of
`input`.  `litStart` is the start of the pending literal run, `i` the scan
position, `tbl` the hash table of prior positions.  A candidate from the
table is accepted when it lies behind `i` within the 65535-byte window and
matches for at least 4 bytes; the acceleration `step` gates how often a match
is attempted (higher acceleration skips match attempts, trading ratio for
speed).  `fuel` bounds the recursion; exhausted fuel flushes the rest as
literals, preserving correctness. -/
def compressAux (input : List Nat) (step : Nat) :
    Nat → Nat → Nat → (Nat → Option Nat) → List Token
  | 0, litStart, _, _ => [⟨input.drop litStart, none⟩]
  | fuel + 1, litStart, i, tbl =>
    if i < input.length then
      match tbl (hashAt input i) with
      | some p =>
        if p < i ∧ i - p ≤ 65535 ∧ 4 ≤ matchLenAt input p i ∧
            (i - litStart) % step = 0 then
          Token.mk ((input.drop litStart).take (i - litStart))
              (some (i - p, matchLenAt input p i))
            :: compressAux input step fuel (i + matchLenAt input p i)
                (i + matchLenAt input p i) (tblInsert tbl (hashAt input i) i)
        else compressAux input step fuel litStart (i + 1)
          (tblInsert tbl (hashAt input i) i)
      | none => compressAux input step fuel litStart (i + 1)
          (tblInsert tbl (hashAt input i) i)
    else [⟨input.drop litStart, none⟩]

/-- Compress one block into a token sequence (spec section 4.1's
`compress(input, acceleration)`), starting from an empty hash table. -/
def compressBlock (input : List Nat) (accel : Nat) : List Token :=
  compressAux input accel input.length 0 0 (fun _ => none)

/-! ### Token serialization (spec section 4.1's byte encoding) -/

/-- Length nibble: the length itself when below 15, else the all-1s sentinel. -/
def lenNib (v : Nat) : Nat := min v 15

/-- Continuation bytes of a length `v` whose nibble was the sentinel 15:
bytes of 255 while the remainder is at least 255, then one final byte. -/
def lenBytes (v : Nat) : List Nat :=
  if v < 15 then [] else List.replicate ((v - 15) / 255) 255 ++ [(v - 15) % 255]

/-- Byte encoding of one token (spec section 4.1): a token byte packing the
literal-length nibble (high) and match-length nibble (low, biased by the
4-byte minimum match), the literal-length continuation bytes, the literal
bytes, and — except for the final literal-only token — a 2-byte little-endian
offset and the match-length continuation bytes. -/
def serializeToken (t : Token) : List Nat :=
  match t.m with
  | none => 16 * lenNib t.lits.length :: (lenBytes t.lits.length ++ t.lits)
  | some om =>
    (16 * lenNib t.lits.length + lenNib (om.2 - 4)) ::
      (lenBytes t.lits.length ++ t.lits ++ [om.1 % 256, om.1 / 256] ++
        lenBytes (om.2 - 4))

/-- Byte encoding of a token sequence. -/
def serializeTokens (ts : List Token) : List Nat :=
  (ts.map serializeToken).flatten

/-! ### Block decompressor (spec section 4.1) -/

/-- Parse length-continuation bytes: add 255 for every sentinel byte, stop at
the first byte below 255. -/
def parseExt : List Nat → Option (Nat × List Nat)
  | [] => none
  | b :: bs =>
    if b = 255 then (parseExt bs).map (fun r => (255 + r.1, r.2))
    else some (b, bs)

/-- Decode a length from its nibble, reading continuation bytes when the
nibble is the sentinel 15. -/
def parseLen (nib : Nat) (bs : List Nat) : Option (Nat × List Nat) :=
  if nib < 15 then some (nib, bs)
  else (parseExt bs).map (fun r => (15 + r.1, r.2))

/-- Copy `len` bytes from `off` bytes behind the end of `out`, byte by byte,
each appended byte becoming visible to the following copies (spec section
4.1: overlapping copies are legal and are done byte-by-byte forward). -/
def copyMatch (off : Nat) : Nat → List Nat → List Nat
  | 0, out => out
  | len + 1, out => copyMatch off len (out ++ [out.getD (out.length - off) 0])

/-- Modelled from the spec (section 4.1): the block decompression loop.  Read
a token byte, decode the literal length, copy the literal bytes; if the block
is exhausted the token was final, otherwise read the 2-byte offset and the
match length and copy the match.  Offset 0 or an offset pointing before the
start of the output is corrupt; `none` signals CorruptBlock. -/
def decompLoop : Nat → List Nat → List Nat → Option (List Nat)
  | 0, _, _ => none
  | _ + 1, [], _ => none
  | fuel + 1, t :: bs, out =>
    match parseLen (t / 16) bs with
    | none => none
    | some r =>
      if r.1 ≤ r.2.length then
        match r.2.drop r.1 with
        | [] => some (out ++ r.2.take r.1)
        | [_] => none
        | o0 :: o1 :: bs4 =>
          match parseLen (t % 16) bs4 with
          | none => none
          | some rm =>
            if 1 ≤ o0 + 256 * o1 ∧
                o0 + 256 * o1 ≤ out.length + r.1 then
              decompLoop fuel rm.2
                (copyMatch (o0 + 256 * o1) (rm.1 + 4) (out ++ r.2.take r.1))
            else none
      else none

/-- Decompress one block's byte payload (spec section 4.1). -/
def decompressBlock (data : List Nat) : Option (List Nat) :=
  decompLoop (data.length + 1) data []

/-! ### Frame encoder (modelled from the spec, sections 4.2 and 6) -/

/-- Error kinds of the codec (spec section 7), together with the parse-level
kinds (`badMagic`, `invalidHeader`, `truncated`) a one-shot decoder needs and
the destination-capacity error of the one-shot `LZ4F_compressFrame`. -/
inductive Err
  | invalidPreferences
  | corruptBlock
  | headerChecksumMismatch
  | blockChecksumMismatch
  | contentChecksumMismatch
  | contentSizeMismatch
  | invalidState
  | badMagic
  | invalidHeader
  | truncated
  | dstMaxSizeTooSmall
deriving DecidableEq, Repr

/-- Magic number bytes of a frame (a fixed 4-byte constant, little-endian). -/
def magicBytes : List Nat := [4, 34, 77, 24]

/-- FLG byte: version bits 01, block-independence bit set, then the
block-checksum, content-size-present and content-checksum bits (spec
section 6); the dictionary-id bit stays clear (dictionaries are out of
scope per the spec's non-goals). -/
def flgByte (p : Preferences) : Nat :=
  96 + 16 * (if p.blockChecksumFlag then 1 else 0)
    + 8 * (if p.contentSize = 0 then 0 else 1)
    + 4 * (if p.contentChecksumFlag then 1 else 0)

/-- BD byte: the block max-size class code in bits 4-6 (spec section 6). -/
def bdByte (p : Preferences) : Nat := 16 * p.blockSizeID.code

/-- Optional 8-byte little-endian content-size field, present iff a nonzero
content size was declared in the preferences. -/
def contentSizeBytes (p : Preferences) : List Nat :=
  if p.contentSize = 0 then [] else toLE 8 p.contentSize

/-- Frame descriptor: the header bytes after the magic number and before the
header checksum byte. -/
def headerDescriptor (p : Preferences) : List Nat :=
  flgByte p :: bdByte p :: contentSizeBytes p

/-- Header checksum byte: the second byte of the checksum of the descriptor
bytes (spec sections 4.2 and 6). -/
def headerChecksumByte (p : Preferences) : Nat :=
  checksum32 (headerDescriptor p) / 256 % 256

/-- Full frame header (spec section 4.2's `begin`). -/
def headerBytes (p : Preferences) : List Nat :=
  magicBytes ++ headerDescriptor p ++ [headerChecksumByte p]

/-- Compress one block's payload: the serialized token stream, or — when
compression would exceed the input size — the block stored uncompressed,
flagged via the high bit of the 32-bit length field (spec sections 4.1, 4.2).
Returns the length field value and the payload bytes. -/
def encodeBlockData (accel : Nat) (chunk : List Nat) : Nat × List Nat :=
  let c := serializeTokens (compressBlock chunk accel)
  if c.length ≤ chunk.length then (c.length, c)
  else (2147483648 + chunk.length, chunk)

/-- Encode one block: 4-byte little-endian length field, payload, and the
optional per-block checksum (spec section 4.2). -/
def encodeBlock (bc : Bool) (accel : Nat) (chunk : List Nat) : List Nat :=
  toLE 4 (encodeBlockData accel chunk).1 ++ (encodeBlockData accel chunk).2 ++
    (if bc then toLE 4 (checksum32 (encodeBlockData accel chunk).2) else [])

/-- Split a byte sequence into blocks of at most `bs` bytes (`fuel` bounds
the recursion; it is instantiated with the list length). -/
def chunksGo (bs : Nat) : Nat → List Nat → List (List Nat)
  | _, [] => []
  | 0, l => [l]
  | fuel + 1, l => l.take bs :: chunksGo bs fuel (l.drop bs)

/-- Split a byte sequence into maximal blocks of at most `bs` bytes; the
empty sequence yields zero blocks (spec section 8). -/
def chunks (bs : Nat) (l : List Nat) : List (List Nat) :=
  chunksGo bs l.length l

/-- Modelled from the spec (sections 4.2 and 6): one-shot frame encoding.
Header, one encoded block per chunk of the configured block size, the 4-byte
zero end marker, and the optional whole-content checksum. -/
def encodeFrame (S : List Nat) (p : Preferences) : List Nat :=
  headerBytes p ++
    ((chunks p.blockSizeID.size S).map
      (encodeBlock p.blockChecksumFlag (clampAcceleration p.compressionLevel))).flatten ++
    toLE 4 0 ++
    (if p.contentChecksumFlag then toLE 4 (checksum32 S) else [])

/-- Modelled from the spec (section 6): the library entry point called by
`main.c` line 17, `compressFrame(source, preferences) -> frame bytes | error`.
The frame is written to the destination only if it fits in `dstCapacity`;
the function is total — no input, including out-of-range preferences, makes
it crash. -/
def LZ4F_compressFrame (dstCapacity : Nat) (src : List Nat) (p : Preferences) :
    Except Err (List Nat) :=
  let frame := encodeFrame src p
  if frame.length ≤ dstCapacity then .ok frame else .error .dstMaxSizeTooSmall

/-! ### Frame decoder (modelled from the spec, section 4.3) -/

/-- Parse the FLG byte: require version 01, block independence, and clear
dictionary-id/reserved bits; extract the block-checksum, content-size-present
and content-checksum flags. -/
def parseFLG (b : Nat) : Option (Bool × Bool × Bool) :=
  if b / 64 = 1 ∧ b / 32 % 2 = 1 ∧ b % 4 = 0 then
    some (decide (b / 16 % 2 = 1), decide (b / 8 % 2 = 1),
      decide (b / 4 % 2 = 1))
  else none

/-- Parse the BD byte into the block size bound it declares. -/
def parseBD (b : Nat) : Option Nat :=
  if b = 64 then some 65536
  else if b = 80 then some 262144
  else if b = 96 then some 1048576
  else if b = 112 then some 4194304
  else none

/-- Recompose a 4-byte little-endian value. -/
def fromLE4 (b0 b1 b2 b3 : Nat) : Nat :=
  b0 + 256 * b1 + 65536 * b2 + 16777216 * b3

/-- Recompose an 8-byte little-endian value. -/
def fromLE8 (b0 b1 b2 b3 b4 b5 b6 b7 : Nat) : Nat :=
  fromLE4 b0 b1 b2 b3 + 4294967296 * fromLE4 b4 b5 b6 b7

/-- Modelled from the spec (section 4.3): header parse.  Reads the magic
number, FLG and BD bytes, the optional content-size field, and the header
checksum byte, which is validated before any size field is trusted.  Returns
the block-checksum flag, the content-checksum flag, the block size bound, the
declared content size (if any) and the remaining bytes. -/
def parseHeader (bs : List Nat) :
    Except Err (Bool × Bool × Nat × Option Nat × List Nat) :=
  match bs with
  | 4 :: 34 :: 77 :: 24 :: flg :: bd :: rest =>
    match parseFLG flg with
    | none => .error .invalidHeader
    | some fl =>
      match parseBD bd with
      | none => .error .invalidHeader
      | some bsz =>
        if fl.2.1 then
          match rest with
          | s0 :: s1 :: s2 :: s3 :: s4 :: s5 :: s6 :: s7 :: hc :: rest2 =>
            if hc = checksum32 (flg :: bd :: [s0, s1, s2, s3, s4, s5, s6, s7])
                / 256 % 256 then
              .ok (fl.1, fl.2.2, bsz,
                some (fromLE8 s0 s1 s2 s3 s4 s5 s6 s7), rest2)
            else .error .headerChecksumMismatch
          | _ => .error .truncated
        else
          match rest with
          | hc :: rest2 =>
            if hc = checksum32 [flg, bd] / 256 % 256 then
              .ok (fl.1, fl.2.2, bsz, none, rest2)
            else .error .headerChecksumMismatch
          | _ => .error .truncated
  | _ :: _ :: _ :: _ :: _ :: _ :: _ => .error .badMagic
  | _ => .error .truncated

/-- Modelled from the spec (section 4.3): the block loop.  Read a 4-byte
length field; zero is the end marker, after which the optional content
checksum is validated.  Otherwise the high bit distinguishes stored from
compressed payloads; the payload must fit the declared block-size bound, the
optional per-block checksum is verified, the payload is decompressed (or
taken verbatim when stored) and appended, and the declared content size, when
present, must never be exceeded. -/
def decodeBlocks (bc cc : Bool) (bsz : Nat) (csz : Option Nat) :
    Nat → List Nat → List Nat → Except Err (List Nat)
  | 0, _, _ => .error .truncated
  | fuel + 1, l0 :: l1 :: l2 :: l3 :: rest, acc =>
    if fromLE4 l0 l1 l2 l3 = 0 then
      if cc then
        match rest with
        | c0 :: c1 :: c2 :: c3 :: _ =>
          if fromLE4 c0 c1 c2 c3 = checksum32 acc then .ok acc
          else .error .contentChecksumMismatch
        | _ => .error .truncated
      else .ok acc
    else
      let stored := 2147483648 ≤ fromLE4 l0 l1 l2 l3
      let dlen := if stored then fromLE4 l0 l1 l2 l3 - 2147483648
        else fromLE4 l0 l1 l2 l3
      if dlen ≤ bsz then
        if dlen ≤ rest.length then
          match (if bc then
              (match rest.drop dlen with
               | k0 :: k1 :: k2 :: k3 :: rest2 =>
                 if fromLE4 k0 k1 k2 k3 = checksum32 (rest.take dlen) then
                   some rest2
                 else none
               | _ => none)
            else some (rest.drop dlen)) with
          | none => .error .blockChecksumMismatch
          | some rest3 =>
            match (if stored then some (rest.take dlen)
              else decompressBlock (rest.take dlen)) with
            | none => .error .corruptBlock
            | some outB =>
              match csz with
              | some v =>
                if acc.length + outB.length ≤ v then
                  decodeBlocks bc cc bsz csz fuel rest3 (acc ++ outB)
                else .error .contentSizeMismatch
              | none => decodeBlocks bc cc bsz csz fuel rest3 (acc ++ outB)
        else .error .truncated
      else .error .corruptBlock
  | _ + 1, _, _ => .error .truncated

/-- Modelled from the spec (section 4.3): one-shot frame decoding.  Parse and
validate the header, then run the block loop; the loop's fuel is bounded by
the remaining byte count, which every block iteration strictly decreases. -/
def decodeFrame (bs : List Nat) : Except Err (List Nat) :=
  match parseHeader bs with
  | .error e => .error e
  | .ok h => decodeBlocks h.1 h.2.1 h.2.2.1 h.2.2.2.1
      (h.2.2.2.2.length + 1) h.2.2.2.2 []

/-! ### The test program `src/liblz4_test/main.c` -/

/-- Loop body of `main.c` lines 13-15: `for (int i = 0; i < sizeof(src); ++i)
src[i] = i;` — each iteration stores the byte value `i mod 256` (the `(char)i`
conversion) and the loop runs while `i < 1023`. -/
def cSrcLoop (i : Nat) : List Nat :=
  if i < 1023 then i % 256 :: cSrcLoop (i + 1) else []
termination_by 1023 - i

/-- Number of iterations executed by the `main.c` initialization loop when
started at counter value `i`. -/
def cLoopSteps (i : Nat) : Nat :=
  if i < 1023 then cLoopSteps (i + 1) + 1 else 0
termination_by 1023 - i

/-- Contents of the `src` buffer after the initialization loop of `main.c`. -/
def mainSrc : List Nat := cSrcLoop 0

/-- The exit code computed by `main.c` lines 17-18 as a function of the
result of `LZ4F_compressFrame`: the result is never inspected and line 18
returns the constant 0. -/
def mainExitCode (r : Except Err (List Nat)) : Nat := 0

/-- Observable behavior of one run of `main` as a function of the program
arguments: the frame-compression result produced into `dst` (capacity 65544,
source `mainSrc`, preferences `mainPref`) and the process exit status.
`argc` and `argv` are parameters of `main` but are never read. -/
def mainObservable (argc : Nat) (argv : List (List Nat)) :
    Except Err (List Nat) × Nat :=
  (LZ4F_compressFrame 65544 mainSrc mainPref,
    mainExitCode (LZ4F_compressFrame 65544 mainSrc mainPref))

/-! ### Properties of the match finder and the match copy -/

theorem matchExtend_le_right : ∀ l1 l2 : List Nat, matchExtend l1 l2 ≤ l2.length := by
  intro l1
  induction l1 with
  | nil => intro l2; simp [matchExtend]
  | cons a as ih =>
    intro l2
    cases l2 with
    | nil => simp [matchExtend]
    | cons b bs =>
      simp only [matchExtend, List.length_cons]
      split
      · exact Nat.succ_le_succ (ih bs)
      · exact Nat.zero_le _

theorem matchExtend_get : ∀ (l1 l2 : List Nat) (k : Nat),
    k < matchExtend l1 l2 → l1[k]? = l2[k]? := by
  intro l1
  induction l1 with
  | nil => intro l2 k h; simp [matchExtend] at h
  | cons a as ih =>
    intro l2 k h
    cases l2 with
    | nil => simp [matchExtend] at h
    | cons b bs =>
      simp only [matchExtend] at h
      by_cases hab : a = b
      · rw [if_pos hab] at h
        cases k with
        | zero => simp [hab]
        | succ k2 =>
          simp only [List.getElem?_cons_succ]
          exact ih bs k2 (by omega)
      · rw [if_neg hab] at h; omega

theorem matchLenAt_le (input : List Nat) (j i : Nat) :
    i + matchLenAt input j i ≤ input.length ∨ input.length ≤ i := by
  rcases le_or_lt i input.length with h | h
  · left
    have := matchExtend_le_right (input.drop j) (input.drop i)
    simp only [List.length_drop] at this
    unfold matchLenAt
    omega
  · right; omega

theorem matchLenAt_get (input : List Nat) (j i k : Nat)
    (h : k < matchLenAt input j i) : input[j + k]? = input[i + k]? := by
  have := matchExtend_get (input.drop j) (input.drop i) k h
  rwa [List.getElem?_drop, List.getElem?_drop] at this

theorem copyMatch_take (input : List Nat) :
    ∀ (L m off : Nat), 1 ≤ off → off ≤ m → m + L ≤ input.length →
    (∀ k, k < L → input[m - off + k]? = input[m + k]?) →
    copyMatch off L (input.take m) = input.take (m + L) := by
  intro L
  induction L with
  | zero => intro m off _ _ _ _; simp [copyMatch]
  | succ L2 ih =>
    intro m off h1 h2 h3 h4
    have hm : m < input.length := by omega
    have hlen : (input.take m).length = m := by
      simp [List.length_take]; omega
    have hbyte : (input.take m).getD (m - off) 0 = input.get ⟨m, hm⟩ := by
      rw [List.getD_eq_getElem?_getD, List.getElem?_take]
      have hlt : m - off < m := by omega
      rw [if_pos hlt]
      have h0 := h4 0 (by omega)
      simp only [Nat.add_zero] at h0
      rw [h0, List.getElem?_eq_getElem hm]
      rfl
    have hstep : input.take m ++ [(input.take m).getD ((input.take m).length - off) 0]
        = input.take (m + 1) := by
      rw [hlen, hbyte, List.take_succ, List.getElem?_eq_getElem hm]
      rfl
    simp only [copyMatch]
    rw [hstep, ih (m + 1) off h1 (by omega) (by omega)]
    · congr 1; omega
    · intro k hk
      have := h4 (k + 1) (by omega)
      have he1 : m - off + (k + 1) = m + 1 - off + k := by omega
      have he2 : m + (k + 1) = m + 1 + k := by omega
      rwa [he1, he2] at this

/-! ### Round trip of the length and token byte encodings -/

theorem parseExt_rt : ∀ (q r : Nat) (rest : List Nat), r < 255 →
    parseExt (List.replicate q 255 ++ r :: rest) = some (255 * q + r, rest) := by
  intro q
  induction q with
  | zero =>
    intro r rest hr
    simp [parseExt, Nat.ne_of_lt hr]
  | succ q2 ih =>
    intro r rest hr
    have hshape : List.replicate (q2 + 1) 255 ++ r :: rest
        = 255 :: (List.replicate q2 255 ++ r :: rest) := by
      simp [List.replicate_succ]
    have hstep : parseExt (255 :: (List.replicate q2 255 ++ r :: rest))
        = (parseExt (List.replicate q2 255 ++ r :: rest)).map
            (fun r2 => (255 + r2.1, r2.2)) := by
      simp [parseExt]
    rw [hshape, hstep, ih r rest hr]
    simp only [Option.map_some']
    have harith : 255 + (255 * q2 + r) = 255 * (q2 + 1) + r := by omega
    rw [harith]

theorem parseLen_rt (v : Nat) (rest : List Nat) :
    parseLen (lenNib v) (lenBytes v ++ rest) = some (v, rest) := by
  by_cases h : v < 15
  · have h1 : lenNib v = v := by unfold lenNib; omega
    simp [parseLen, lenBytes, h, h1]
  · have h1 : lenNib v = 15 := by unfold lenNib; omega
    have h2 : ¬ (15 : Nat) < 15 := by omega
    simp only [parseLen, h1, if_neg h2, lenBytes, if_neg h]
    rw [List.append_assoc, List.cons_append, List.nil_append,
      parseExt_rt _ _ _ (Nat.mod_lt _ (by omega))]
    simp only [Option.map_some']
    have harith : 15 + (255 * ((v - 15) / 255) + (v - 15) % 255) = v := by omega
    rw [harith]

theorem serializeTokens_nil : serializeTokens [] = [] := rfl

theorem serializeTokens_cons (t : Token) (ts : List Token) :
    serializeTokens (t :: ts) = serializeToken t ++ serializeTokens ts := by
  simp [serializeTokens]

theorem serializeToken_length_pos (t : Token) : 1 ≤ (serializeToken t).length := by
  unfold serializeToken
  cases t.m <;> simp

theorem lenNib_le (v : Nat) : lenNib v ≤ 15 := by unfold lenNib; omega

theorem tokenByte_div (a b : Nat) (ha : a ≤ 15) (hb : b ≤ 15) :
    (16 * a + b) / 16 = a := by omega

theorem tokenByte_mod (a b : Nat) (ha : a ≤ 15) (hb : b ≤ 15) :
    (16 * a + b) % 16 = b := by omega

theorem decompLoop_final (lits out : List Nat) (fuel : Nat) :
    decompLoop (fuel + 1) (serializeToken (Token.mk lits none)) out
      = some (out ++ lits) := by
  have hdiv : 16 * lenNib lits.length / 16 = lenNib lits.length := by
    have := lenNib_le lits.length; omega
  simp only [serializeToken, decompLoop, hdiv, parseLen_rt, List.drop_length,
    List.take_length, le_refl, if_true]

theorem decompLoop_match (lits rest out : List Nat) (off mlen fuel : Nat)
    (h1 : 1 ≤ off) (h2 : off ≤ out.length + lits.length) (h4 : 4 ≤ mlen) :
    decompLoop (fuel + 1) (serializeToken (Token.mk lits (some (off, mlen))) ++ rest) out
      = decompLoop fuel rest (copyMatch off mlen (out ++ lits)) := by
  have ha := lenNib_le lits.length
  have hb := lenNib_le (mlen - 4)
  have hdiv := tokenByte_div (lenNib lits.length) (lenNib (mlen - 4)) ha hb
  have hmod := tokenByte_mod (lenNib lits.length) (lenNib (mlen - 4)) ha hb
  have hshape : serializeToken (Token.mk lits (some (off, mlen))) ++ rest
      = (16 * lenNib lits.length + lenNib (mlen - 4)) ::
          (lenBytes lits.length ++
            (lits ++ (off % 256 :: off / 256 ::
              (lenBytes (mlen - 4) ++ rest)))) := by
    simp [serializeToken, List.append_assoc]
  rw [hshape]
  simp only [decompLoop, hdiv, hmod, parseLen_rt]
  have hlen : lits.length ≤ (lits ++ (off % 256 :: off / 256 ::
      (lenBytes (mlen - 4) ++ rest))).length := by
    simp [List.length_append]
  rw [if_pos hlen, List.drop_left, List.take_left]
  simp only [parseLen_rt]
  have hoff : off % 256 + 256 * (off / 256) = off := by omega
  have hcond : 1 ≤ off % 256 + 256 * (off / 256) ∧
      off % 256 + 256 * (off / 256) ≤ out.length + lits.length := by
    rw [hoff]; exact ⟨h1, h2⟩
  rw [if_pos hcond, hoff]
  have hm4 : mlen - 4 + 4 = mlen := by omega
  rw [hm4]

theorem decompLoop_finalTok (input : List Nat) (litStart fuel2 : Nat)
    (out : List Nat) (hout : out = input.take litStart) (hf : 1 ≤ fuel2) :
    decompLoop fuel2 (serializeTokens [Token.mk (input.drop litStart) none]) out
      = some input := by
  cases fuel2 with
  | zero => omega
  | succ g =>
    rw [serializeTokens_cons, serializeTokens_nil, List.append_nil,
      decompLoop_final, hout, List.take_append_drop]

theorem decompLoop_compressAux (input : List Nat) (step : Nat) :
    ∀ (fuel litStart i : Nat) (tbl : Nat → Option Nat) (fuel2 : Nat)
      (out : List Nat),
      litStart ≤ i → i ≤ input.length → out = input.take litStart →
      (serializeTokens (compressAux input step fuel litStart i tbl)).length < fuel2 →
      decompLoop fuel2 (serializeTokens (compressAux input step fuel litStart i tbl)) out
        = some input := by
  intro fuel
  induction fuel with
  | zero =>
    intro litStart i tbl fuel2 out h1 h2 hout hf
    have he : compressAux input step 0 litStart i tbl
        = [Token.mk (input.drop litStart) none] := rfl
    rw [he]
    exact decompLoop_finalTok input litStart fuel2 out hout (by omega)
  | succ f ih =>
    intro litStart i tbl fuel2 out h1 h2 hout hf
    by_cases hin : i < input.length
    · cases hc : tbl (hashAt input i) with
      | none =>
        have he : compressAux input step (f + 1) litStart i tbl
            = compressAux input step f litStart (i + 1)
                (tblInsert tbl (hashAt input i) i) := by
          simp only [compressAux, if_pos hin, hc]
        rw [he] at hf ⊢
        exact ih litStart (i + 1) _ fuel2 out (by omega) (by omega) hout hf
      | some p =>
        by_cases hcond : p < i ∧ i - p ≤ 65535 ∧ 4 ≤ matchLenAt input p i ∧
            (i - litStart) % step = 0
        · obtain ⟨hp, hw, hm, hs⟩ := hcond
          have he : compressAux input step (f + 1) litStart i tbl
              = Token.mk ((input.drop litStart).take (i - litStart))
                  (some (i - p, matchLenAt input p i))
                :: compressAux input step f (i + matchLenAt input p i)
                    (i + matchLenAt input p i) (tblInsert tbl (hashAt input i) i) := by
            simp only [compressAux, if_pos hin, hc]
            rw [if_pos ⟨hp, hw, hm, hs⟩]
          rw [he] at hf ⊢
          rw [serializeTokens_cons] at hf ⊢
          cases fuel2 with
          | zero => simp at hf
          | succ g =>
            have hol : out.length = litStart := by
              rw [hout, List.length_take]; omega
            have hll : ((input.drop litStart).take (i - litStart)).length
                = i - litStart := by
              rw [List.length_take, List.length_drop]; omega
            rw [decompLoop_match _ _ _ _ _ _ (by omega) (by omega) hm]
            have hmn : i + matchLenAt input p i ≤ input.length := by
              rcases matchLenAt_le input p i with hle1 | hle2
              · exact hle1
              · omega
            have hout2 : out ++ (input.drop litStart).take (i - litStart)
                = input.take i := by
              rw [hout, ← List.take_add]
              congr 1
              omega
            have hcopy : copyMatch (i - p) (matchLenAt input p i)
                (out ++ (input.drop litStart).take (i - litStart))
                = input.take (i + matchLenAt input p i) := by
              rw [hout2]
              exact copyMatch_take input (matchLenAt input p i) i (i - p)
                (by omega) (by omega) (by omega)
                (fun k hk => by
                  have h5 := matchLenAt_get input p i k hk
                  have h6 : i - (i - p) + k = p + k := by omega
                  rw [h6, h5])
            rw [hcopy]
            apply ih (i + matchLenAt input p i) (i + matchLenAt input p i) _ g _
              (le_refl _) hmn rfl
            have hpos := serializeToken_length_pos
              (Token.mk ((input.drop litStart).take (i - litStart))
                (some (i - p, matchLenAt input p i)))
            rw [List.length_append] at hf
            omega
        · have he : compressAux input step (f + 1) litStart i tbl
              = compressAux input step f litStart (i + 1)
                  (tblInsert tbl (hashAt input i) i) := by
            simp only [compressAux, if_pos hin, hc]
            rw [if_neg hcond]
          rw [he] at hf ⊢
          exact ih litStart (i + 1) _ fuel2 out (by omega) (by omega) hout hf
    · have he : compressAux input step (f + 1) litStart i tbl
          = [Token.mk (input.drop litStart) none] := by
        simp only [compressAux, if_neg hin]
      rw [he]
      exact decompLoop_finalTok input litStart fuel2 out hout (by omega)

theorem decompressBlock_rt (input : List Nat) (accel : Nat) :
    decompressBlock (serializeTokens (compressBlock input accel)) = some input := by
  unfold decompressBlock compressBlock
  exact decompLoop_compressAux input accel input.length 0 0 (fun _ => none) _ []
    (le_refl 0) (Nat.zero_le _) rfl (by omega)

/-! ### Frame-level helper lemmas -/

theorem toLE_length : ∀ (k n : Nat), (toLE k n).length = k := by
  intro k
  induction k with
  | zero => intro n; rfl
  | succ k2 ih => intro n; simp [toLE, ih]

theorem toLE4_eq (n : Nat) :
    toLE 4 n = [n % 256, n / 256 % 256, n / 256 / 256 % 256,
      n / 256 / 256 / 256 % 256] := rfl

theorem fromLE4_toLE4 (n : Nat) (h : n < 4294967296) :
    fromLE4 (n % 256) (n / 256 % 256) (n / 256 / 256 % 256)
      (n / 256 / 256 / 256 % 256) = n := by
  unfold fromLE4; omega

theorem checksum_fold_lt :
    ∀ (l : List Nat) (a : Nat), a < 4294967296 →
      l.foldl (fun a b => (a * 31 + b + 1) % 4294967296) a < 4294967296 := by
  intro l
  induction l with
  | nil => intro a ha; simpa using ha
  | cons b bs ih =>
    intro a _
    simp only [List.foldl_cons]
    exact ih _ (Nat.mod_lt _ (by omega))

theorem checksum32_lt (l : List Nat) : checksum32 l < 4294967296 :=
  checksum_fold_lt l 17 (by omega)

theorem chunksGo_flatten (bs : Nat) (hbs : 1 ≤ bs) :
    ∀ (fuel : Nat) (l : List Nat), l.length ≤ fuel →
      (chunksGo bs fuel l).flatten = l := by
  intro fuel
  induction fuel with
  | zero =>
    intro l hl
    have : l = [] := List.length_eq_zero.mp (by omega)
    subst this
    rfl
  | succ f ih =>
    intro l hl
    cases l with
    | nil => rfl
    | cons a l2 =>
      simp only [chunksGo, List.flatten_cons]
      rw [ih (List.drop bs (a :: l2)) (by
        have hl2 := hl
        simp only [List.length_cons] at hl2
        simp only [List.length_drop, List.length_cons]
        omega)]
      exact List.take_append_drop bs (a :: l2)

theorem chunksGo_mem (bs : Nat) (hbs : 1 ≤ bs) :
    ∀ (fuel : Nat) (l c : List Nat), l.length ≤ fuel →
      c ∈ chunksGo bs fuel l → c ≠ [] ∧ c.length ≤ bs := by
  intro fuel
  induction fuel with
  | zero =>
    intro l c hl hc
    have : l = [] := List.length_eq_zero.mp (by omega)
    subst this
    simp [chunksGo] at hc
  | succ f ih =>
    intro l c hl hc
    cases l with
    | nil => simp [chunksGo] at hc
    | cons a l2 =>
      simp only [chunksGo, List.mem_cons] at hc
      rcases hc with hc | hc
      · subst hc
        constructor
        · rw [Ne, List.take_eq_nil_iff]
          push_neg
          exact ⟨by omega, by simp⟩
        · simp [List.length_take]
      · refine ih _ _ ?_ hc
        have hl2 := hl
        simp only [List.length_cons] at hl2
        simp only [List.length_drop, List.length_cons]
        omega

theorem chunks_flatten (bs : Nat) (hbs : 1 ≤ bs) (l : List Nat) :
    (chunks bs l).flatten = l :=
  chunksGo_flatten bs hbs l.length l (le_refl _)

theorem chunks_mem (bs : Nat) (hbs : 1 ≤ bs) (l c : List Nat)
    (hc : c ∈ chunks bs l) : c ≠ [] ∧ c.length ≤ bs :=
  chunksGo_mem bs hbs l.length l c (le_refl _) hc

theorem compressAux_ne_nil (input : List Nat) (step : Nat) :
    ∀ (fuel litStart i : Nat) (tbl : Nat → Option Nat),
      compressAux input step fuel litStart i tbl ≠ [] := by
  intro fuel
  induction fuel with
  | zero => intro litStart i tbl; simp [compressAux]
  | succ f ih =>
    intro litStart i tbl
    by_cases hin : i < input.length
    · cases hc : tbl (hashAt input i) with
      | none => simp only [compressAux, if_pos hin, hc]; exact ih _ _ _
      | some p =>
        simp only [compressAux, if_pos hin, hc]
        split
        · simp
        · exact ih _ _ _
    · simp [compressAux, if_neg hin]

theorem compressBlock_ne_nil (input : List Nat) (accel : Nat) :
    compressBlock input accel ≠ [] :=
  compressAux_ne_nil input accel input.length 0 0 (fun _ => none)

theorem serializeTokens_length_pos (ts : List Token) (h : ts ≠ []) :
    1 ≤ (serializeTokens ts).length := by
  cases ts with
  | nil => exact absurd rfl h
  | cons t ts2 =>
    rw [serializeTokens_cons, List.length_append]
    have := serializeToken_length_pos t
    omega

theorem decodeBlocks_block (bc cc : Bool) (bsz fuel lf : Nat)
    (data more acc : List Nat)
    (h32 : lf < 4294967296) (h0 : lf ≠ 0)
    (hdlen : (if 2147483648 ≤ lf then lf - 2147483648 else lf) = data.length)
    (hbsz : data.length ≤ bsz) :
    decodeBlocks bc cc bsz none (fuel + 1)
      (toLE 4 lf ++ (data ++
        ((if bc then toLE 4 (checksum32 data) else []) ++ more))) acc
      = match (if 2147483648 ≤ lf then some data else decompressBlock data) with
        | none => Except.error Err.corruptBlock
        | some outB => decodeBlocks bc cc bsz none fuel more (acc ++ outB) := by
  rw [toLE4_eq]
  simp only [List.cons_append, List.nil_append]
  simp only [decompLoop, decodeBlocks]
  rw [fromLE4_toLE4 lf h32, if_neg h0, hdlen]
  rw [if_pos hbsz]
  have hrlen : data.length ≤ (data ++
      ((if bc then toLE 4 (checksum32 data) else []) ++ more)).length := by
    simp [List.length_append]
  rw [if_pos hrlen, List.take_left, List.drop_left]
  cases bc with
  | false =>
    norm_num
  | true =>
    norm_num
    rw [toLE4_eq]
    simp only [List.cons_append]
    rw [fromLE4_toLE4 (checksum32 data) (checksum32_lt data), if_pos rfl]
    simp only [List.nil_append]

theorem decodeBlocks_step (bc cc : Bool) (bsz accel fuel : Nat)
    (chunk more acc : List Nat) (hne : chunk ≠ []) (hlen : chunk.length ≤ bsz)
    (hbsz : bsz ≤ 4194304) :
    decodeBlocks bc cc bsz none (fuel + 1) (encodeBlock bc accel chunk ++ more) acc
      = decodeBlocks bc cc bsz none fuel more (acc ++ chunk) := by
  by_cases hcomp : (serializeTokens (compressBlock chunk accel)).length ≤ chunk.length
  · have hdata : encodeBlockData accel chunk
        = ((serializeTokens (compressBlock chunk accel)).length,
          serializeTokens (compressBlock chunk accel)) := by
      unfold encodeBlockData
      rw [if_pos hcomp]
    have hshape : encodeBlock bc accel chunk ++ more
        = toLE 4 (serializeTokens (compressBlock chunk accel)).length ++
            (serializeTokens (compressBlock chunk accel) ++
              ((if bc then
                  toLE 4 (checksum32 (serializeTokens (compressBlock chunk accel)))
                else []) ++ more)) := by
      unfold encodeBlock
      rw [hdata]
      simp [List.append_assoc]
    have hns : ¬ 2147483648 ≤ (serializeTokens (compressBlock chunk accel)).length := by
      omega
    rw [hshape,
      decodeBlocks_block bc cc bsz fuel _ _ more acc (by omega)
        (by
          have := serializeTokens_length_pos _ (compressBlock_ne_nil chunk accel)
          omega)
        (by rw [if_neg hns]) (by omega)]
    rw [if_neg hns, decompressBlock_rt]
  · have hdata : encodeBlockData accel chunk
        = (2147483648 + chunk.length, chunk) := by
      unfold encodeBlockData
      rw [if_neg hcomp]
    have hshape : encodeBlock bc accel chunk ++ more
        = toLE 4 (2147483648 + chunk.length) ++
            (chunk ++ ((if bc then toLE 4 (checksum32 chunk) else []) ++ more)) := by
      unfold encodeBlock
      rw [hdata]
      simp [List.append_assoc]
    have hst : 2147483648 ≤ 2147483648 + chunk.length := by omega
    rw [hshape,
      decodeBlocks_block bc cc bsz fuel _ _ more acc (by omega) (by omega)
        (by rw [if_pos hst]; omega) (by omega)]
    rw [if_pos hst]

theorem decodeBlocks_full (bc cc : Bool) (bsz accel : Nat) (hbsz : bsz ≤ 4194304) :
    ∀ (cs : List (List Nat)) (acc : List Nat) (fuel : Nat),
      (∀ c ∈ cs, c ≠ [] ∧ c.length ≤ bsz) →
      cs.length < fuel →
      decodeBlocks bc cc bsz none fuel
        ((cs.map (encodeBlock bc accel)).flatten ++ toLE 4 0 ++
          (if cc then toLE 4 (checksum32 (acc ++ cs.flatten)) else [])) acc
        = Except.ok (acc ++ cs.flatten) := by
  intro cs
  induction cs with
  | nil =>
    intro acc fuel _ hfuel
    cases fuel with
    | zero => omega
    | succ f =>
      simp only [List.map_nil, List.flatten_nil, List.nil_append, List.append_nil]
      have h00 : fromLE4 0 0 0 0 = 0 := by decide
      have ht : toLE 4 0 = [0, 0, 0, 0] := by decide
      cases cc with
      | false =>
        rw [ht]
        simp [decodeBlocks, h00]
      | true =>
        rw [ht, toLE4_eq]
        simp [decodeBlocks, h00,
          fromLE4_toLE4 (checksum32 acc) (checksum32_lt acc)]
  | cons c cs2 ih =>
    intro acc fuel hmem hfuel
    cases fuel with
    | zero => omega
    | succ f =>
      obtain ⟨hne, hlen⟩ := hmem c (List.mem_cons_self c cs2)
      have hmem2 : ∀ d ∈ cs2, d ≠ [] ∧ d.length ≤ bsz := by
        intro d hd
        exact hmem d (List.mem_cons_of_mem c hd)
      have hshape : ((c :: cs2).map (encodeBlock bc accel)).flatten ++ toLE 4 0 ++
          (if cc then toLE 4 (checksum32 (acc ++ (c :: cs2).flatten)) else [])
          = encodeBlock bc accel c ++
              ((cs2.map (encodeBlock bc accel)).flatten ++ toLE 4 0 ++
                (if cc then toLE 4 (checksum32 ((acc ++ c) ++ cs2.flatten)) else [])) := by
        simp [List.flatten_cons, List.append_assoc]
      rw [hshape, decodeBlocks_step bc cc bsz accel f c _ acc hne hlen hbsz,
        ih (acc ++ c) f hmem2 (by simp at hfuel; omega)]
      simp [List.flatten_cons, List.append_assoc]

theorem BlockSizeID.size_pos (b : BlockSizeID) : 1 ≤ b.size := by
  cases b <;> decide

theorem BlockSizeID.size_le (b : BlockSizeID) : b.size ≤ 4194304 := by
  cases b <;> decide

theorem parseFLG_flgByte (p : Preferences) (h0 : p.contentSize = 0) :
    parseFLG (flgByte p)
      = some (p.blockChecksumFlag, false, p.contentChecksumFlag) := by
  unfold parseFLG flgByte
  rw [if_pos h0]
  cases hb : p.blockChecksumFlag <;> cases hc2 : p.contentChecksumFlag <;> decide

theorem parseBD_bdByte (p : Preferences) :
    parseBD (bdByte p) = some p.blockSizeID.size := by
  unfold parseBD bdByte BlockSizeID.size BlockSizeID.code
  cases p.blockSizeID <;> decide

theorem parseHeader_headerBytes (p : Preferences) (rest : List Nat)
    (h0 : p.contentSize = 0) :
    parseHeader (headerBytes p ++ rest)
      = Except.ok (p.blockChecksumFlag, p.contentChecksumFlag,
          p.blockSizeID.size, none, rest) := by
  have hdesc : headerDescriptor p = [flgByte p, bdByte p] := by
    unfold headerDescriptor contentSizeBytes
    rw [if_pos h0]
  have hshape : headerBytes p ++ rest
      = 4 :: 34 :: 77 :: 24 :: flgByte p :: bdByte p ::
          (headerChecksumByte p :: rest) := by
    unfold headerBytes magicBytes
    rw [hdesc]
    simp
  rw [hshape]
  simp only [parseHeader, parseFLG_flgByte p h0, parseBD_bdByte p]
  have hck : headerChecksumByte p = checksum32 [flgByte p, bdByte p] / 256 % 256 := by
    unfold headerChecksumByte
    rw [hdesc]
  simp only [Bool.false_eq_true, if_false, hck, if_pos rfl, if_true]

theorem length_le_flatten (l : List (List Nat)) (h : ∀ x ∈ l, 1 ≤ x.length) :
    l.length ≤ l.flatten.length := by
  induction l with
  | nil => simp
  | cons x xs ih =>
    simp only [List.length_cons, List.flatten_cons, List.length_append]
    have h1 := h x (List.mem_cons_self x xs)
    have h2 := ih (fun y hy => h y (List.mem_cons_of_mem x hy))
    omega

theorem encodeBlock_length_pos (bc : Bool) (accel : Nat) (chunk : List Nat) :
    1 ≤ (encodeBlock bc accel chunk).length := by
  unfold encodeBlock
  simp only [List.length_append, toLE_length]
  omega

theorem decodeFrame_encodeFrame (S : List Nat) (p : Preferences)
    (h0 : p.contentSize = 0) :
    decodeFrame (encodeFrame S p) = Except.ok S := by
  have hbs1 := BlockSizeID.size_pos p.blockSizeID
  have hbs2 := BlockSizeID.size_le p.blockSizeID
  have hfl : (chunks p.blockSizeID.size S).flatten = S :=
    chunks_flatten _ hbs1 S
  have hshape : encodeFrame S p = headerBytes p ++
      (((chunks p.blockSizeID.size S).map
          (encodeBlock p.blockChecksumFlag
            (clampAcceleration p.compressionLevel))).flatten
        ++ toLE 4 0 ++
        (if p.contentChecksumFlag then toLE 4 (checksum32 S) else [])) := by
    unfold encodeFrame
    simp [List.append_assoc]
  rw [hshape]
  have hparse := parseHeader_headerBytes p
    ((((chunks p.blockSizeID.size S).map
        (encodeBlock p.blockChecksumFlag
          (clampAcceleration p.compressionLevel))).flatten
      ++ toLE 4 0 ++
      (if p.contentChecksumFlag then toLE 4 (checksum32 S) else []))) h0
  simp only [decodeFrame, hparse]
  have hmemb : ∀ c ∈ chunks p.blockSizeID.size S,
      c ≠ [] ∧ c.length ≤ p.blockSizeID.size :=
    fun c hc => chunks_mem _ hbs1 S c hc
  have hckrw : (if p.contentChecksumFlag then toLE 4 (checksum32 S) else [])
      = (if p.contentChecksumFlag then
          toLE 4 (checksum32 ([] ++ (chunks p.blockSizeID.size S).flatten))
        else []) := by
    rw [hfl, List.nil_append]
  have hlenmap : (chunks p.blockSizeID.size S).length ≤
      (((chunks p.blockSizeID.size S).map
        (encodeBlock p.blockChecksumFlag
          (clampAcceleration p.compressionLevel))).flatten).length := by
    have h5 := length_le_flatten
      ((chunks p.blockSizeID.size S).map
        (encodeBlock p.blockChecksumFlag (clampAcceleration p.compressionLevel)))
      (by
        intro x hx
        obtain ⟨c, hc, hxc⟩ := List.mem_map.mp hx
        rw [← hxc]
        exact encodeBlock_length_pos _ _ _)
    rwa [List.length_map] at h5
  rw [hckrw, decodeBlocks_full p.blockChecksumFlag p.contentChecksumFlag
    p.blockSizeID.size (clampAcceleration p.compressionLevel) hbs2
    (chunks p.blockSizeID.size S) [] _ hmemb
    (by
      simp only [List.length_append, toLE_length]
      omega)]
  rw [List.nil_append, hfl]

/-! ### Properties of the test program model -/

theorem cSrcLoop_eq : ∀ (d i : Nat), i + d = 1023 →
    cSrcLoop i = (List.range' i d).map (fun k => k % 256) := by
  intro d
  induction d with
  | zero =>
    intro i hi
    rw [cSrcLoop, if_neg (by omega)]
    simp
  | succ d2 ih =>
    intro i hi
    rw [cSrcLoop, if_pos (by omega), ih (i + 1) (by omega), List.range'_succ]
    simp

theorem cLoopSteps_eq : ∀ (d i : Nat), i + d = 1023 → cLoopSteps i = d := by
  intro d
  induction d with
  | zero =>
    intro i hi
    rw [cLoopSteps, if_neg (by omega)]
  | succ d2 ih =>
    intro i hi
    rw [cLoopSteps, if_pos (by omega), ih (i + 1) (by omega)]

theorem mainSrc_eq : mainSrc = (List.range 1023).map (fun k => k % 256) := by
  unfold mainSrc
  rw [cSrcLoop_eq 1023 0 rfl, List.range_eq_range']

theorem mainSrc_length : mainSrc.length = 1023 := by
  rw [mainSrc_eq]
  simp

/-! ### Frame size bounds for the fixed call in main -/

theorem encodeBlockData_le (accel : Nat) (chunk : List Nat) :
    (encodeBlockData accel chunk).2.length ≤ chunk.length := by
  simp only [encodeBlockData]
  split
  · next h => simpa using h
  · simp

theorem chunks_single (bs : Nat) (l : List Nat) (h1 : l ≠ []) (h2 : l.length ≤ bs) :
    chunks bs l = [l] := by
  unfold chunks
  cases l with
  | nil => exact absurd rfl h1
  | cons a l2 =>
    show chunksGo bs (l2.length + 1) (a :: l2) = [a :: l2]
    simp only [chunksGo]
    rw [List.take_of_length_le (by simpa using h2),
      List.drop_eq_nil_of_le (by simpa using h2)]
    cases l2.length <;> simp [chunksGo]

theorem headerBytes_mainPref_length : (headerBytes mainPref).length = 7 := by
  have hdesc : headerDescriptor mainPref = [flgByte mainPref, bdByte mainPref] := by
    unfold headerDescriptor contentSizeBytes
    rw [if_pos (show mainPref.contentSize = 0 from rfl)]
  unfold headerBytes magicBytes
  rw [hdesc]
  simp

theorem encodeFrame_main_le (S : List Nat) (h : S.length = 1023) :
    (encodeFrame S mainPref).length ≤ 1038 := by
  have hne : S ≠ [] := by
    intro hS
    rw [hS] at h
    simp at h
  have hch : chunks (mainPref.blockSizeID.size) S = [S] := by
    have : mainPref.blockSizeID.size = 65536 := rfl
    rw [this]
    exact chunks_single 65536 S hne (by omega)
  unfold encodeFrame
  rw [hch]
  have hccf : mainPref.contentChecksumFlag = false := rfl
  rw [hccf]
  have hblen : (encodeBlock mainPref.blockChecksumFlag
      (clampAcceleration mainPref.compressionLevel) S).length ≤ 1027 := by
    have hbcf : mainPref.blockChecksumFlag = false := rfl
    rw [hbcf]
    unfold encodeBlock
    have hdl := encodeBlockData_le (clampAcceleration mainPref.compressionLevel) S
    simp only [List.length_append, toLE_length, Bool.false_eq_true, if_false,
      List.length_nil]
    omega
  simp only [List.map_cons, List.map_nil, List.length_append, toLE_length,
    List.flatten_cons, List.flatten_nil, List.append_nil, Bool.false_eq_true,
    if_false, List.length_nil, headerBytes_mainPref_length]
  omega

theorem LZ4F_compressFrame_main_fits (S : List Nat) (h : S.length = 1023) :
    LZ4F_compressFrame 65544 S mainPref = Except.ok (encodeFrame S mainPref) := by
  unfold LZ4F_compressFrame
  rw [if_pos]
  have := encodeFrame_main_le S h
  omega

/-! ### The claims -/

/-- C1: for the fixed invocation performed by main (1023-byte source, 65544-byte
destination, zeroed preferences except compressionLevel = -47366883), the call
to LZ4F_compressFrame completes (here: returns a value, in fact successfully)
and main returns exit status 0 for any program arguments; the negative level
never causes abnormal termination (every function of the model is total). -/
theorem main_compressFrame_completes_and_returns_zero :
    (∀ (argc : Nat) (argv : List (List Nat)), (mainObservable argc argv).2 = 0) ∧
    (∃ frame, LZ4F_compressFrame 65544 mainSrc mainPref = Except.ok frame) :=
  ⟨fun _ _ => rfl,
    ⟨encodeFrame mainSrc mainPref, LZ4F_compressFrame_main_fits mainSrc mainSrc_length⟩⟩

/-- C2: an out-of-range compressionLevel is clamped, never used as a raw huge
value: the level -47366883 set by main clamps to the acceleration cap; every
level yields an acceleration between 1 and ACCELERATION_MAX; negative levels
are exactly clamped acceleration; and the frame the encoder produces for
main's preferences is the one produced at the clamp boundary level -65537. -/
theorem compressionLevel_clamped :
    clampAcceleration mainPref.compressionLevel = ACCELERATION_MAX ∧
    (∀ lvl : Int, 1 ≤ clampAcceleration lvl ∧
      clampAcceleration lvl ≤ ACCELERATION_MAX) ∧
    (∀ lvl : Int, lvl < 0 →
      clampAcceleration lvl = min (-lvl).toNat ACCELERATION_MAX) ∧
    (∀ S : List Nat,
      encodeFrame S mainPref
        = encodeFrame S (mkPrefs BlockSizeID.default false false (-65537))) := by
  refine ⟨by decide, ?_, ?_, ?_⟩
  · intro lvl
    unfold clampAcceleration ACCELERATION_MAX
    split
    · next h =>
      constructor
      · have h1 : 1 ≤ (-lvl).toNat := by omega
        omega
      · exact min_le_right _ _
    · exact ⟨le_refl 1, by omega⟩
  · intro lvl h
    unfold clampAcceleration
    rw [if_pos h]
  · intro S
    rfl

/-- C2 witness: the clamping equation applied at the concrete level -3. -/
theorem compressionLevel_clamped_witness :
    (-3 : Int) < 0 ∧
    clampAcceleration (-3) = min (-(-3 : Int)).toNat ACCELERATION_MAX :=
  ⟨by decide, compressionLevel_clamped.2.2.1 (-3) (by decide)⟩

/-- C3 counterexample: the claim calls the configured compression level
"billion-scale", but the level set by main.c line 12 is -47366883, whose
magnitude is below one billion. -/
theorem compressionLevel_not_billion_scale :
    mainPref.compressionLevel = -47366883 ∧
    ¬ (1000000000 ≤ -mainPref.compressionLevel) := by
  decide

/-- C3 (amended): the test source under src discards the return value of the
compression call entirely (the exit code is the same function of any result)
and uses implausible configuration values, specifically a negative compression
level of -47366883 (tens of millions in magnitude). -/
theorem snippet_discards_result_implausible_level :
    (∀ r1 r2 : Except Err (List Nat), mainExitCode r1 = mainExitCode r2) ∧
    mainPref.compressionLevel = -47366883 ∧
    mainPref.compressionLevel < 0 ∧
    10000000 ≤ -mainPref.compressionLevel :=
  ⟨fun _ _ => rfl, rfl, by decide, by decide⟩

/-- C4: after the initialization loop of main.c lines 13-15, for every index
i below 1023 the source buffer holds the byte value i mod 256 (the value of
the C conversion (char)i, read as a byte); no other input contributes. -/
theorem mainSrc_values (i : Nat) (h : i < 1023) :
    mainSrc[i]? = some (i % 256) := by
  rw [mainSrc_eq, List.getElem?_map, List.getElem?_range h, Option.map_some']

/-- C4 witness: the buffer contents at the concrete index 700. -/
theorem mainSrc_values_witness :
    700 < 1023 ∧ mainSrc[700]? = some (700 % 256) :=
  ⟨by decide, mainSrc_values 700 (by decide)⟩

/-- C5: main performs no failure handling: the exit code computed from the
result of LZ4F_compressFrame is the constant 0, whether the call returns
ok or any error, and every run exits with status 0. -/
theorem main_discards_return_code :
    (∀ r : Except Err (List Nat), mainExitCode r = 0) ∧
    (∀ (argc : Nat) (argv : List (List Nat)), (mainObservable argc argv).2 = 0) ∧
    mainExitCode (Except.error Err.dstMaxSizeTooSmall)
      = mainExitCode (Except.ok (encodeFrame mainSrc mainPref)) :=
  ⟨fun _ => rfl, fun _ _ => rfl, rfl⟩

/-- C6: the preferences struct is zero-initialized and, at the call site,
every field other than compressionLevel still holds its zero/default value
(the zero-means-default convention); setting compressionLevel changed no
other field. -/
theorem mainPref_only_level_set :
    mainPref.compressionLevel = -47366883 ∧
    mainPref.blockSizeID = Preferences.zeroed.blockSizeID ∧
    mainPref.blockChecksumFlag = Preferences.zeroed.blockChecksumFlag ∧
    mainPref.contentChecksumFlag = Preferences.zeroed.contentChecksumFlag ∧
    mainPref.contentSize = Preferences.zeroed.contentSize ∧
    mainPref.autoFlush = Preferences.zeroed.autoFlush ∧
    Preferences.zeroed.blockSizeID = BlockSizeID.default ∧
    Preferences.zeroed.blockChecksumFlag = false ∧
    Preferences.zeroed.contentChecksumFlag = false ∧
    Preferences.zeroed.contentSize = 0 ∧
    Preferences.zeroed.autoFlush = false := by
  decide

/-- C7: the program is deterministic: its observable behavior (the bytes
produced into dst by LZ4F_compressFrame and the exit status) is the same
function value for any two argument vectors, since argc and argv are never
read and the only inputs are the hard-coded buffer and preferences. -/
theorem main_deterministic (argc1 : Nat) (argv1 : List (List Nat))
    (argc2 : Nat) (argv2 : List (List Nat)) :
    mainObservable argc1 argv1 = mainObservable argc2 argv2 := rfl

/-- C8: round-trip correctness of the frame codec: for every byte sequence S,
including the empty one, and every combination of block size, checksum flags
and compression level in the preferences, decoding the frame produced by
encoding S yields exactly S. -/
theorem frame_roundtrip (S : List Nat) (bsid : BlockSizeID) (bc cc : Bool)
    (lvl : Int) :
    decodeFrame (encodeFrame S (mkPrefs bsid bc cc lvl)) = Except.ok S :=
  decodeFrame_encodeFrame S (mkPrefs bsid bc cc lvl) rfl

/-- C9: main always terminates: its only loop, started at counter 0 with
guard i < 1023, executes exactly 1023 iterations, and the buffer it builds
has exactly 1023 entries. -/
theorem main_loop_terminates :
    cLoopSteps 0 = 1023 ∧ mainSrc.length = 1023 :=
  ⟨cLoopSteps_eq 1023 0 rfl, mainSrc_length⟩

/-- C10: the destination capacity 65544 passed by main is at least the
worst-case frame size for a 1023-byte source under main's preferences (one
64KB-class block plus header/footer overhead, at most 1038 bytes), so the
size-bounded call cannot fail for lack of destination space. -/
theorem dst_capacity_sufficient (S : List Nat) (h : S.length = 1023) :
    (encodeFrame S mainPref).length ≤ 65544 ∧
    LZ4F_compressFrame 65544 S mainPref = Except.ok (encodeFrame S mainPref) :=
  ⟨by have := encodeFrame_main_le S h; omega,
    LZ4F_compressFrame_main_fits S h⟩

/-- C10 witness: the bound applied to the concrete buffer built by main. -/
theorem dst_capacity_sufficient_witness :
    mainSrc.length = 1023 ∧ (encodeFrame mainSrc mainPref).length ≤ 65544 :=
  ⟨mainSrc_length, (dst_capacity_sufficient mainSrc mainSrc_length).1⟩
